import Mathlib

/-!
Verification of the bitk issue-execution engine against its specification.

The definitions below are shallow embeddings of the TypeScript source:
pure functions become Lean functions, the durable log store becomes a list
of rows, the in-memory managed process becomes a record, and byte streams
become lists of decoded chunks.  Clock values (`new Date().toISOString()`)
and generated ids (`ulid()`) are passed in as explicit parameters.
-/

namespace Bitk

/-! ## Generic string and list helpers (JS semantics) -/

/-- JS whitespace test used by `trim` and `split(/\s+/)` (ASCII cases). -/
def isWs (c : Char) : Bool := c.isWhitespace

/-- JS `s.trim()` at the character-list level. -/
def jsTrimList (cs : List Char) : List Char :=
  ((cs.dropWhile isWs).reverse.dropWhile isWs).reverse

/-- JS `s.trim()` on strings. -/
def jsTrim (s : String) : String := String.mk (jsTrimList s.data)

/-- JS `command.trim().split(/\s+/)[0] ?? ''`: the first whitespace-delimited token. -/
def firstToken (s : String) : String :=
  String.mk ((s.data.dropWhile isWs).takeWhile (fun c => !isWs c))

/-- JS `hay.includes(needle)` at the character-list level. -/
def containsSub (needle : List Char) : List Char → Bool
  | [] => needle.isEmpty
  | c :: rest => needle.isPrefixOf (c :: rest) || containsSub needle rest

/-- JS `s.toLowerCase()` (ASCII cases). -/
def toLowerJs (s : String) : String := String.mk (s.data.map Char.toLower)

/-- JS `s.startsWith(p)`. -/
def jsStartsWith (s p : String) : Bool := p.data.isPrefixOf s.data

/-! ## Command classification (src/unnamed/part_001, `classifyCommand`) -/

inductive CommandCategory
  | read
  | search
  | edit
  | fetch
  | other
deriving DecidableEq

def readCmds : List String := ["cat", "head", "tail", "ls", "less", "more"]

def searchCmds : List String := ["grep", "rg", "find", "awk", "ag"]

def editCmds : List String := ["sed", "rm", "mv", "cp", "mkdir", "touch"]

def fetchCmds : List String := ["curl", "wget"]

/-- Embedding of `classifyCommand`: the first whitespace-delimited token is
matched against fixed sets, with a `>` check (on the whole command) folded
into the edit branch. -/
def classifyCommand (command : String) : CommandCategory :=
  let cmd := firstToken command
  if readCmds.contains cmd then .read
  else if searchCmds.contains cmd then .search
  else if command.data.contains '>' || editCmds.contains cmd then .edit
  else if fetchCmds.contains cmd then .fetch
  else .other

/-! ## Title extraction (src/app/engines/issue/streams.ts, `extractTitle`)

The source matches the JS regex `/<bitk><title>(.*?)<\/title><\/bitk>/`:
earliest starting position, lazy group, and `.` not matching line
terminators.  The embedding implements exactly that matcher. -/

/-- The characters of the literal `<bitk><title>`. -/
def openTag : List Char :=
  ['<', 'b', 'i', 't', 'k', '>', '<', 't', 'i', 't', 'l', 'e', '>']

/-- The characters of the literal `</title></bitk>`. -/
def closeTag : List Char :=
  ['<', '/', 't', 'i', 't', 'l', 'e', '>', '<', '/', 'b', 'i', 't', 'k', '>']

/-- Characters that the JS regex `.` does not match. -/
def isLineTerm (c : Char) : Bool :=
  c = '\n' || c = '\r' || c = Char.ofNat 0x2028 || c = Char.ofNat 0x2029

/-- Lazy matching of `(.*?)</title></bitk>`: the shortest run of
non-line-terminator characters followed by the closing tag. -/
def lazyScan (acc : List Char) : List Char → Option (List Char)
  | [] => none
  | c :: rest =>
    if closeTag.isPrefixOf (c :: rest) then some acc.reverse
    else if isLineTerm c then none
    else lazyScan (c :: acc) rest

/-- Attempt a regex match anchored at the head of `s`. -/
def tryMatchAt (s : List Char) : Option (List Char) :=
  if openTag.isPrefixOf s then lazyScan [] (s.drop openTag.length) else none

/-- Regex search: try every starting position from the left. -/
def firstMatch : List Char → Option (List Char)
  | [] => tryMatchAt []
  | c :: rest =>
    match tryMatchAt (c :: rest) with
    | some g => some g
    | none => firstMatch rest

/-- Embedding of `extractTitle`: first match of the title regex, trimmed,
capped at 200 characters; the empty string collapses to null. -/
def extractTitle (content : String) : Option String :=
  match firstMatch content.data with
  | none => none
  | some g =>
    let title := (jsTrimList g).take 200
    if title.isEmpty then none else some (String.mk title)

/-! ## Stream normalization (src/unnamed/part_001, `normalizeStream`)

Chunks are modelled as already-decoded strings (the source decodes bytes
with a streaming UTF-8 decoder into a string buffer).  `splitNlAux`
returns the completed lines together with the trailing (possibly
incomplete) fragment, i.e. JS `buffer.split('\n')` with the popped last
element kept separate. -/

/-- Split on `'\n'`: completed lines plus the trailing fragment. -/
def splitNlAux : List Char → List (List Char) × List Char
  | [] => ([], [])
  | c :: cs =>
    let r := splitNlAux cs
    if c = '\n' then ([] :: r.1, r.2)
    else
      match r.1 with
      | [] => ([], c :: r.2)
      | l :: ls => ((c :: l) :: ls, r.2)

/-- JS `s.split('\n')`: every piece, including the trailing fragment. -/
def jsSplitLines (cs : List Char) : List (List Char) :=
  (splitNlAux cs).1 ++ [(splitNlAux cs).2]

/-- Processing of one decoded chunk: append to the buffer, split off the
completed lines, feed each non-blank line to the parser, keep the
results of the non-null parses in order. -/
def normStep (parse : String → Option α) (st : List Char × List α) (chunk : String) :
    List Char × List α :=
  let r := splitNlAux (st.1 ++ chunk.data)
  (r.2, st.2 ++ (r.1.filter (fun l => !(jsTrimList l).isEmpty)).filterMap
    (fun l => parse (String.mk l)))

/-- Embedding of `normalizeStream`: fold over the chunks, then parse the
non-blank remaining buffer exactly once on stream end. -/
def normalizeStream (chunks : List String) (parse : String → Option α) : List α :=
  let st := chunks.foldl (normStep parse) ([], [])
  st.2 ++ (if !(jsTrimList st.1).isEmpty then (parse (String.mk st.1)).toList else [])

/-- Concatenation of all decoded chunks. -/
def chunksData (chunks : List String) : List Char := (chunks.map String.data).flatten

/-- Events observed by the consumer of the `normalizeStream` generator, in
order: entries yielded, the `reader.releaseLock()` performed by the
`finally` block, and an exception propagating out of the generator. -/
inductive StreamEvent (ε α : Type) where
  | yielded (a : α)
  | released
  | raised (e : ε)
deriving DecidableEq

/-- The `for (const line of lines)` loop of `normalizeStream` with a
fallible parser: blank lines are skipped, non-null parses are yielded in
order, and a parser that throws aborts the loop, keeping the entries
already yielded and recording the exception. -/
def feedLines (parse : String → Except ε (Option α)) :
    List (List Char) → List α × Option ε
  | [] => ([], none)
  | l :: ls =>
    if (jsTrimList l).isEmpty then feedLines parse ls
    else
      match parse (String.mk l) with
      | .error e => ([], some e)
      | .ok none => feedLines parse ls
      | .ok (some a) =>
        let r := feedLines parse ls
        (a :: r.1, r.2)

/-- The `try` block of `normalizeStream` over a reader whose successive
`read()` results each deliver a decoded chunk or throw: the entries
yielded in order, and the exception that ended the body, if any.  A read
that throws, or a parser that throws mid-chunk or on the final fragment,
stops the body at that point. -/
def normalizeStreamBody (parse : String → Except ε (Option α)) :
    List Char → List (Except ε String) → List α × Option ε
  | buf, [] =>
    if (jsTrimList buf).isEmpty then ([], none)
    else
      match parse (String.mk buf) with
      | .error e => ([], some e)
      | .ok none => ([], none)
      | .ok (some a) => ([a], none)
  | _, .error e :: _ => ([], some e)
  | buf, .ok chunk :: rest =>
    let r := splitNlAux (buf ++ chunk.data)
    let fed := feedLines parse r.1
    match fed.2 with
    | some e => (fed.1, some e)
    | none =>
      let next := normalizeStreamBody parse r.2 rest
      (fed.1 ++ next.1, next.2)

/-- Embedding of `normalizeStream` as its consumer-visible event trace: the
events of the `try` block, then the reader release that the `finally`
block performs on both the normal and the exceptional exit, then the
exception (if any) propagating to the consumer. -/
def normalizeStreamTrace (reads : List (Except ε String))
    (parse : String → Except ε (Option α)) : List (StreamEvent ε α) :=
  let body := normalizeStreamBody parse [] reads
  (body.1.map .yielded) ++ [.released]
    ++ (match body.2 with
        | some e => [.raised e]
        | none => [])

/-! ## Normalized log entries (src/app/engines/issue/streams.ts)

The metadata of a normalized entry is a JS object; only the keys the
consumers read are modelled, each as an `Option` so that key presence is
distinguishable from absence. -/

structure Metadata where
  turnCompleted : Option Bool := none
  resultSubtype : Option String := none
  duration : Option Nat := none
  error : Option String := none
  subtype : Option String := none
  slashCommands : Option (List String) := none
  type : Option String := none
deriving DecidableEq

structure NormalizedLogEntry where
  entryType : String
  content : String
  turnIndex : Option Nat := none
  timestamp : Option String := none
  metadata : Option Metadata := none
deriving DecidableEq

/-- Embedding of `isTurnCompletionEntry`: explicit `turnCompleted=true`, or a
present `resultSubtype` key, or a system message with a `duration` key. -/
def isTurnCompletionEntry (e : NormalizedLogEntry) : Bool :=
  (e.metadata.bind (·.turnCompleted)) == some true
  || (match e.metadata with
      | some m => m.resultSubtype.isSome
      | none => false)
  || (e.entryType == "system-message"
      && (match e.metadata with
          | some m => m.duration.isSome
          | none => false))

/-- Embedding of `isCancelledNoiseEntry`: `resultSubtype` must be the string
`error_during_execution`, and the lowercased `content ⧺ " " ⧺ error` text
must contain one of four fixed phrases. -/
def isCancelledNoiseEntry (e : NormalizedLogEntry) : Bool :=
  match e.metadata.bind (·.resultSubtype) with
  | none => false
  | some subtype =>
    subtype == "error_during_execution"
    && (let raw := toLowerJs (e.content ++ " " ++ ((e.metadata.bind (·.error)).getD ""))
        containsSub "request was aborted".data raw.data
        || containsSub "request interrupted by user".data raw.data
        || containsSub "rust analyzer lsp crashed".data raw.data
        || containsSub "rust-analyzer-lsp".data raw.data)

/-- Result of handling one normalized entry inside `consumeStream`:
what (if anything) reaches `onEntry`, whether `onTurnCompleted` fires,
and any slash commands learned from an SDK init message. -/
structure StreamStep where
  delivered : Option NormalizedLogEntry
  turnCompleted : Bool
  slashCommands : Option (List String)
deriving DecidableEq

/-- Embedding of the per-entry body of `consumeStream`: stamp turn index and
timestamp, learn slash commands from init messages, tag meta-turn entries
with `metadata.type = system`, then either suppress the entry as
post-cancellation noise (still signalling turn completion) or deliver it. -/
def processStreamEntry (cancelledByUser metaTurn : Bool) (turnIdx : Nat) (now : String)
    (raw : NormalizedLogEntry) : StreamStep :=
  let e := { raw with
    turnIndex := some turnIdx
    timestamp := some (raw.timestamp.getD now) }
  let slash :=
    if e.entryType == "system-message" && (e.metadata.bind (·.subtype)) == some "init" then
      e.metadata.bind (·.slashCommands)
    else none
  let e :=
    if metaTurn then
      { e with metadata := some { (e.metadata.getD {}) with type := some "system" } }
    else e
  if cancelledByUser && isCancelledNoiseEntry e then
    ⟨none, isTurnCompletionEntry e, slash⟩
  else
    ⟨some e, isTurnCompletionEntry e, slash⟩

/-- Embedding of `pushStderrEntry`: build an `error-message` entry, append it
to the in-memory ring only while below the cap, and hand it to `onEntry`
unconditionally (the second component).  The numeric cap `MAX_LOG_ENTRIES`
is defined in `engines/issue/types`, outside the available sources, so the
cap is taken as a parameter. -/
def pushStderrEntry (maxEntries : Nat) (logs : List NormalizedLogEntry)
    (content : String) (turnIdx : Nat) (now : String) :
    List NormalizedLogEntry × NormalizedLogEntry :=
  let entry : NormalizedLogEntry :=
    { entryType := "error-message", content, turnIndex := some turnIdx, timestamp := some now }
  (if logs.length < maxEntries then logs ++ [entry] else logs, entry)

/-! ## Managed process and turn completion (src/unnamed/part_012) -/

inductive ProcState
  | starting
  | running
  | terminating
  | exited
deriving DecidableEq

/-- One element of the in-memory `pendingInputs` FIFO queue. -/
structure PendingInput where
  prompt : String
  displayPrompt : Option String := none
  model : Option String := none
  metadata : Option Metadata := none
deriving DecidableEq

/-- The fields of the managed process that `handleTurnCompleted` and
`flushQueuedInputs` consult. -/
structure Managed where
  state : ProcState
  turnInFlight : Bool
  pendingInputs : List PendingInput
  logicalFailure : Bool
deriving DecidableEq

/-- Payload handed to `sendInputToRunningProcess` (that function lives in
`engines/issue/user-message`, outside the available sources, so the send is
recorded as data instead of performed). -/
structure SentInput where
  prompt : String
  displayPrompt : Option String
  metadata : Option Metadata
deriving DecidableEq

/-- Observable outcome of a turn-completion event. -/
inductive TurnOutcome
  | noop
  | flushed (sent : SentInput) (modelOverride : Option String)
  | settle (finalStatus : String)
deriving DecidableEq

/-- Modelled from the spec: `dispatch(managed, TURN_COMPLETED)`
(`engines/issue/state` is not under the available sources).  Per the state
machine, completing a turn on a running process ends the in-flight turn and
keeps the process running. -/
def dispatchTurnCompleted (m : Managed) : Managed := { m with turnInFlight := false }

/-- Embedding of `flushQueuedInputs`: merge the whole queue into one prompt
joined by blank lines, take the last non-null model override, empty the
queue, and send to the still-running process. -/
def flushQueuedInputs (m : Managed) : Managed × TurnOutcome :=
  if (m.state != .running) || m.turnInFlight then (m, .noop)
  else if m.pendingInputs.isEmpty then (m, .noop)
  else
    let all := m.pendingInputs
    let m2 := { m with pendingInputs := [] }
    let mergedPrompt := String.intercalate "\n\n" ((all.map (·.prompt)).filter (fun p => p != ""))
    let lastModel := all.foldl (fun acc i => i.model.or acc) none
    let mergedDisplayRaw :=
      String.intercalate "\n\n" ((all.filterMap (·.displayPrompt)).filter (fun p => p != ""))
    let mergedDisplay := if mergedDisplayRaw == "" then none else some mergedDisplayRaw
    (m2, .flushed ⟨mergedPrompt, mergedDisplay, (all.getLast?).bind (·.metadata)⟩ lastModel)

/-- Embedding of `handleTurnCompleted` up to its synchronous decision: a
non-running process is ignored; with queued inputs the queue is flushed to
the running process; otherwise the issue settles with `failed` when a
logical failure was recorded and `completed` otherwise. -/
def handleTurnCompleted (m : Managed) : Managed × TurnOutcome :=
  if m.state != .running then (m, .noop)
  else
    let m1 := dispatchTurnCompleted m
    if m1.pendingInputs.length > 0 then flushQueuedInputs m1
    else (m1, .settle (if m1.logicalFailure then "failed" else "completed"))

/-! ## Durable issue logs (src/app/routes/issues/session.ts and
src/unnamed/part_011)

Rows carry their metadata as a structured JSON object; `JSON.stringify` at
insert time and `JSON.parse` at query time are inverse on these values.
The `visible` column is modelled from the spec (the schema revision that
adds it is not under the available sources): it defaults to 1 on insert
and is set to 0 when a pending message is dispatched. -/

inductive JVal
  | jstr (s : String)
  | jbool (b : Bool)
  | jnum (n : Int)
deriving DecidableEq

/-- A JSON object, as stored in the `metadata` column. -/
abbrev JObj := List (String × JVal)

structure IssueLogRow where
  rid : String
  issueId : String
  turnIndex : Int
  entryIndex : Int
  entryType : String
  content : String
  metadata : Option JObj
  visible : Int
  timestamp : String
deriving DecidableEq

/-- SQL `MAX` over a column: none on the empty set. -/
def listMax? : List Int → Option Int
  | [] => none
  | x :: xs =>
    match listMax? xs with
    | none => some x
    | some m => some (max x m)

/-- Rows of one issue, in insertion order. -/
def issueRows (db : List IssueLogRow) (issueId : String) : List IssueLogRow :=
  db.filter (fun r => r.issueId == issueId)

/-- The `(max(entryIndex) ?? -1) + 1` computation of `persistPendingMessage`. -/
def nextEntryIndex (db : List IssueLogRow) (issueId : String) : Int :=
  (listMax? ((issueRows db issueId).map (·.entryIndex))).getD (-1) + 1

/-- The `(max(turnIndex) ?? -1) + 1` computation of `persistPendingMessage`. -/
def nextTurnIndex (db : List IssueLogRow) (issueId : String) : Int :=
  (listMax? ((issueRows db issueId).map (·.turnIndex))).getD (-1) + 1

/-- The row inserted by `persistPendingMessage` (id and timestamp are
generated outside the transaction and passed in). -/
def mkPendingRow (db : List IssueLogRow) (issueId prompt : String) (meta : JObj)
    (newId ts : String) : IssueLogRow :=
  { rid := newId
    issueId := issueId
    turnIndex := nextTurnIndex db issueId
    entryIndex := nextEntryIndex db issueId
    entryType := "user-message"
    content := jsTrim prompt
    metadata := some meta
    visible := 1
    timestamp := ts }

/-- Embedding of `persistPendingMessage`: one transaction that reads both
max indices and appends the new `user-message` row. -/
def persistPendingMessage (db : List IssueLogRow) (issueId prompt : String) (meta : JObj)
    (newId ts : String) : List IssueLogRow :=
  db ++ [mkPendingRow db issueId prompt meta newId ts]

/-- Default metadata of the todo-issue queue path: `{ pending: true }`. -/
def pendingDefaultMeta : JObj := [("pending", .jbool true)]

/-- Ascending `(turnIndex, entryIndex)` comparison used by the `orderBy`. -/
def rowOrderLe (a b : IssueLogRow) : Bool :=
  a.turnIndex < b.turnIndex || (a.turnIndex == b.turnIndex && a.entryIndex ≤ b.entryIndex)

/-- Insertion into a list sorted by `le`. -/
def insertByLe (le : α → α → Bool) (x : α) : List α → List α
  | [] => [x]
  | y :: ys => if le y x then y :: insertByLe le x ys else x :: y :: ys

/-- Insertion sort by `le`, modelling the SQL `ORDER BY`. -/
def sortByLe (le : α → α → Bool) : List α → List α
  | [] => []
  | x :: xs => insertByLe le x (sortByLe le xs)

/-- Embedding of `getPendingMessages`: visible user-message rows of the
issue with non-null metadata, ordered by `(turnIndex, entryIndex)`, kept
only when the parsed metadata has `type === 'pending'`. -/
def getPendingMessages (db : List IssueLogRow) (issueId : String) : List IssueLogRow :=
  (sortByLe rowOrderLe (db.filter (fun r =>
      r.issueId == issueId && r.entryType == "user-message"
        && r.visible == 1 && r.metadata.isSome))).filter
    (fun r =>
      match r.metadata with
      | some o => (o.lookup "type") == some (.jstr "pending")
      | none => false)

/-- Embedding of `markPendingMessagesDispatched`: set `visible = 0` on the
rows whose id is listed. -/
def markPendingMessagesDispatched (db : List IssueLogRow) (ids : List String) :
    List IssueLogRow :=
  db.map (fun r => if ids.contains r.rid then { r with visible := 0 } else r)

/-! ## Log pagination (src/apps/api/src/routes/issues/logs.ts)

The route handler composes `issueEngine.getLogs` with overfetching and
trimming.  `issueEngine.getLogs` itself is not under the available
sources, so it is modelled from the spec below.  Cursor values (ULIDs)
are modelled as naturals that increase with insertion order; `devOnly`
marks an entry that the devMode post-filter hides outside devMode. -/

structure LogView where
  mid : Nat
  devOnly : Bool
deriving DecidableEq

/-- Take the last `n` elements of a list. -/
def takeLast (n : Nat) (l : List α) : List α := (l.reverse.take n).reverse

/-- Modelled from the spec: the devMode post-filter — devMode shows every
entry, normal mode hides dev-only entries. -/
def visibleLogs (logs : List LogView) (devMode : Bool) : List LogView :=
  logs.filter (fun r => devMode || !r.devOnly)

/-- Modelled from the spec: `issueEngine.getLogs` — apply the devMode
visibility filter; without a cursor return the newest `limit` entries in
ascending order (reverse fetch); with `cursor` return the oldest `limit`
entries strictly after it (forward); with `before`
return the newest `limit` entries strictly before it. -/
def getLogs (logs : List LogView) (devMode : Bool) (cursor bef : Option Nat)
    (limit : Nat) : List LogView :=
  let vis := visibleLogs logs devMode
  match cursor with
  | some c => (vis.filter (fun r => c < r.mid)).take limit
  | none =>
    match bef with
    | some b => takeLast limit (vis.filter (fun r => r.mid < b))
    | none => takeLast limit vis

/-- The page returned by the route handler. -/
structure LogsPage where
  logs : List LogView
  nextCursor : Option Nat
  hasMore : Bool
deriving DecidableEq

/-- The handler's limit clamping: `min(max(Number(limit) || 30, 1), 1000)`
when the query parameter is present, 30 otherwise. -/
def effLimit (limitParam : Option Nat) : Nat :=
  match limitParam with
  | some n => if n = 0 then 30 else min (max n 1) 1000
  | none => 30

/-- Embedding of the `GET /:id/logs` handler: overfetch by factor 2 outside
devMode (plus one to detect a further page), trim to the requested page
keeping the newest entries on a reverse fetch and the oldest on a forward
fetch, and expose the page cursor only when a further page exists. -/
def getLogsHandler (logs : List LogView) (devMode : Bool) (cursor bef : Option Nat)
    (limitParam : Option Nat) : LogsPage :=
  let effectiveLimit := effLimit limitParam
  let overfetchFactor := if devMode then 1 else 2
  let fetchLimit := effectiveLimit * overfetchFactor + 1
  let ls := getLogs logs devMode cursor bef fetchLimit
  let isReverse := cursor.isNone
  let hasMore := effectiveLimit < ls.length
  let trimmed :=
    if hasMore then
      if isReverse then takeLast effectiveLimit ls else ls.take effectiveLimit
    else ls
  let cursorEntry := if isReverse then trimmed.head? else trimmed.getLast?
  let nextCursor := if hasMore then cursorEntry.map (·.mid) else none
  ⟨trimmed, nextCursor, hasMore⟩

/-! ## Workspace-root enforcement (src/app/routes/issues/session.ts,
`POST /:id/execute`)

Path resolution (`node:path` `resolve`) is kept abstract as a function
parameter applied exactly where the source applies it. -/

/-- Embedding of the SEC-016 guard: the request is rejected with 403 iff
this returns true.  The JS condition `workspaceRoot && workspaceRoot !== '/'`
treats the empty string as absent (falsy). -/
def workspaceGuardRejects (res : String → String) (workspaceRoot : Option String)
    (workingDir : String) : Bool :=
  match workspaceRoot with
  | none => false
  | some root =>
    if root == "" then false
    else if root == "/" then false
    else
      let resolvedDir := res workingDir
      let resolvedRoot := res root
      !(jsStartsWith resolvedDir (resolvedRoot ++ "/")) && resolvedDir != resolvedRoot

/-- Restatement of claim C9's reject condition in its own words, for
comparison with the source guard: root present, not `/`, and the resolved
directory neither equal to nor strictly inside the resolved root. -/
def claimGuardRejects (res : String → String) (workspaceRoot : Option String)
    (workingDir : String) : Bool :=
  match workspaceRoot with
  | none => false
  | some root =>
    if root == "/" then false
    else
      !(jsStartsWith (res workingDir) (res root ++ "/")) && res workingDir != res root

/-! ## Concrete inputs used by the witness theorems -/

/-- The four suppression phrases of `isCancelledNoiseEntry`. -/
def noisePhrases : List String :=
  ["request was aborted", "request interrupted by user",
    "rust analyzer lsp crashed", "rust-analyzer-lsp"]

/-- Five durable log entries in insertion order; entry 2 is dev-only. -/
def demoRows : List LogView :=
  [⟨1, false⟩, ⟨2, true⟩, ⟨3, false⟩, ⟨4, false⟩, ⟨5, false⟩]

/-- A running process with two queued inputs; the first carries a model
override, the second does not. -/
def demoManaged : Managed :=
  { state := .running
    turnInFlight := true
    pendingInputs :=
      [ { prompt := "a", displayPrompt := some "A", model := some "m1" }
      , { prompt := "b" } ]
    logicalFailure := false }

/-- An in-memory stderr ring that has reached a cap of one entry. -/
def demoStderrRing : List NormalizedLogEntry :=
  [{ entryType := "error-message", content := "earlier line" }]

/-- A normalized result entry Claude emits after a user interrupt. -/
def demoNoiseEntry : NormalizedLogEntry :=
  { entryType := "system-message"
    content := "Request was aborted mid-turn"
    metadata := some { resultSubtype := some "error_during_execution" } }

/-- One pre-existing durable log row of issue `i1`. -/
def demoLogRow : IssueLogRow :=
  { rid := "log-0"
    issueId := "i1"
    turnIndex := 0
    entryIndex := 0
    entryType := "user-message"
    content := "initial prompt"
    metadata := none
    visible := 1
    timestamp := "t0" }

/-! ## Helper lemmas -/

theorem isPrefixOf_append_self {α} [BEq α] [LawfulBEq α] (a b : List α) :
    a.isPrefixOf (a ++ b) = true := by
  induction a with
  | nil => simp [List.isPrefixOf]
  | cons c a' ih => simp [List.isPrefixOf, ih]

theorem isPrefixOf_extend {α} [BEq α] [LawfulBEq α] {n x : List α} (b : List α)
    (h : n.isPrefixOf x = true) : n.isPrefixOf (x ++ b) = true := by
  induction n generalizing x with
  | nil => simp [List.isPrefixOf]
  | cons c n' ih =>
    cases x with
    | nil => simp [List.isPrefixOf] at h
    | cons d x' =>
      simp only [List.isPrefixOf, Bool.and_eq_true, beq_iff_eq] at h
      simp only [List.cons_append, List.isPrefixOf, Bool.and_eq_true, beq_iff_eq]
      exact ⟨h.1, ih h.2⟩

theorem isPrefixOf_iff_exists {α} [BEq α] [LawfulBEq α] {a b : List α} :
    a.isPrefixOf b = true ↔ ∃ t, b = a ++ t := by
  constructor
  · intro h
    induction a generalizing b with
    | nil => exact ⟨b, rfl⟩
    | cons c a' ih =>
      cases b with
      | nil => simp [List.isPrefixOf] at h
      | cons d b' =>
        simp only [List.isPrefixOf, Bool.and_eq_true, beq_iff_eq] at h
        obtain ⟨t, ht⟩ := ih h.2
        exact ⟨t, by simp [h.1, ht]⟩
  · rintro ⟨t, rfl⟩
    exact isPrefixOf_append_self a t

theorem containsSub_of_isPrefixOf {n x : List Char} (hx : x ≠ [])
    (h : n.isPrefixOf x = true) : containsSub n x = true := by
  cases x with
  | nil => exact absurd rfl hx
  | cons c rest => simp [containsSub, h]

theorem containsSub_append_left {n a : List Char} (b : List Char)
    (h : containsSub n a = true) : containsSub n (a ++ b) = true := by
  induction a with
  | nil =>
    simp only [containsSub, List.isEmpty_iff] at h
    subst h
    cases b with
    | nil => simp [containsSub]
    | cons c rest => simp [containsSub, List.isPrefixOf]
  | cons c a' ih =>
    simp only [containsSub, Bool.or_eq_true] at h
    rcases h with h | h
    · simp only [List.cons_append, containsSub, Bool.or_eq_true]
      exact Or.inl (by simpa using isPrefixOf_extend b h)
    · simp only [List.cons_append, containsSub, Bool.or_eq_true]
      exact Or.inr (ih h)

theorem containsSub_append_right {n b : List Char} (a : List Char)
    (h : containsSub n b = true) : containsSub n (a ++ b) = true := by
  induction a with
  | nil => simpa using h
  | cons c a' ih => simp [containsSub, ih]

theorem listMax?_le_of_mem {l : List Int} {x : Int} (hx : x ∈ l) :
    ∃ m, listMax? l = some m ∧ x ≤ m := by
  induction l with
  | nil => cases hx
  | cons a t ih =>
    rcases List.mem_cons.mp hx with rfl | hx'
    · cases h : listMax? t with
      | none => exact ⟨x, by simp [listMax?, h], le_refl x⟩
      | some m => exact ⟨max x m, by simp [listMax?, h], le_max_left x m⟩
    · obtain ⟨m, hm, hxm⟩ := ih hx'
      exact ⟨max a m, by simp [listMax?, hm], le_trans hxm (le_max_right a m)⟩

theorem foldl_lastSome {α β} (f : α → Option β) (l : List α) (init : Option β) :
    l.foldl (fun acc i => (f i).or acc) init = ((l.reverse.findSome? f).or init) := by
  induction l generalizing init with
  | nil => simp
  | cons a t ih =>
    simp only [List.foldl_cons, List.reverse_cons]
    rw [ih, List.findSome?_append]
    cases h : t.reverse.findSome? f <;> cases hfa : f a <;>
      simp [List.findSome?, hfa, Option.or]

/-! ## C10 — stderr ring cap never suppresses delivery -/

/-- C10: once the in-memory log ring has reached the cap, `pushStderrEntry`
leaves the ring unchanged while still handing the freshly built
`error-message` entry to `onEntry`. -/
theorem pushStderr_capped_still_delivers (maxEntries : Nat)
    (logs : List NormalizedLogEntry) (content : String) (turnIdx : Nat) (now : String)
    (hfull : maxEntries ≤ logs.length) :
    (pushStderrEntry maxEntries logs content turnIdx now).1 = logs
    ∧ (pushStderrEntry maxEntries logs content turnIdx now).2 =
        { entryType := "error-message", content := content,
          turnIndex := some turnIdx, timestamp := some now } := by
  unfold pushStderrEntry
  simp [Nat.not_lt.mpr hfull]

/-- Witness for C10 at a cap of one and a ring already holding one entry. -/
theorem pushStderr_capped_still_delivers_witness :
    1 ≤ demoStderrRing.length
    ∧ (pushStderrEntry 1 demoStderrRing "boom" 2 "t1").1 = demoStderrRing
    ∧ (pushStderrEntry 1 demoStderrRing "boom" 2 "t1").2 =
        { entryType := "error-message", content := "boom",
          turnIndex := some 2, timestamp := some "t1" } := by
  refine ⟨by decide, ?_, ?_⟩
  · exact (pushStderr_capped_still_delivers 1 demoStderrRing "boom" 2 "t1" (by decide)).1
  · exact (pushStderr_capped_still_delivers 1 demoStderrRing "boom" 2 "t1" (by decide)).2

/-! ## C9 — workspace-root enforcement -/

/-- C9 counterexample: an empty-string workspace root is present and differs
from `/`, and the working directory resolves outside it, yet the source
guard does not reject (the JS truthiness test treats `''` as absent). -/
theorem workspaceGuard_emptyRoot_cex :
    workspaceGuardRejects id (some "") "x" = false
    ∧ claimGuardRejects id (some "") "x" = true := ⟨rfl, rfl⟩

/-- C9 amended: the execute handler rejects with the forbidden error iff the
workspace root setting is present, non-empty, not `/`, and the resolved
project directory is neither the resolved root nor strictly inside it;
an unset, empty, or `/` root disables the check. -/
theorem workspaceGuard_characterization (res : String → String)
    (root : Option String) (wd : String) :
    (workspaceGuardRejects res root wd = true ↔
      ∃ r, root = some r ∧ r ≠ "" ∧ r ≠ "/"
        ∧ ¬ jsStartsWith (res wd) (res r ++ "/") = true ∧ res wd ≠ res r)
    ∧ workspaceGuardRejects res none wd = false
    ∧ workspaceGuardRejects res (some "/") wd = false
    ∧ workspaceGuardRejects res (some "") wd = false := by
  refine ⟨?_, rfl, by simp [workspaceGuardRejects], by simp [workspaceGuardRejects]⟩
  cases root with
  | none => simp [workspaceGuardRejects]
  | some r =>
    by_cases h0 : r = ""
    · subst h0
      simp [workspaceGuardRejects]
    · by_cases h1 : r = "/"
      · subst h1
        simp [workspaceGuardRejects]
      · simp [workspaceGuardRejects, h0, h1, Bool.and_eq_true, Bool.not_eq_true',
          Bool.not_eq_true]

/-! ## C4 — command classification -/

/-- C4 counterexample: `cat a > b` contains a `>` redirection yet is
classified `read`, not `edit` — the redirection check does not override the
read/search token sets. -/
theorem classifyCommand_redirect_cex :
    ("cat a > b").data.contains '>' = true
    ∧ classifyCommand "cat a > b" ≠ .edit
    ∧ classifyCommand "cat a > b" = .read := by
  refine ⟨by decide, by decide, by decide⟩

/-- C4 amended: `classifyCommand` maps every command into the five
categories by matching the first whitespace-delimited token against the
fixed sets in the priority order read, search, edit, fetch; a `>` anywhere
in the command forces `edit` exactly when the first token is in neither
the read set nor the search set. -/
theorem classifyCommand_tokenSets (command : String) :
    (classifyCommand command = .read ∨ classifyCommand command = .search
      ∨ classifyCommand command = .edit ∨ classifyCommand command = .fetch
      ∨ classifyCommand command = .other)
    ∧ (readCmds.contains (firstToken command) = true → classifyCommand command = .read)
    ∧ (readCmds.contains (firstToken command) = false →
        searchCmds.contains (firstToken command) = true →
        classifyCommand command = .search)
    ∧ (readCmds.contains (firstToken command) = false →
        searchCmds.contains (firstToken command) = false →
        (command.data.contains '>' = true ∨ editCmds.contains (firstToken command) = true) →
        classifyCommand command = .edit)
    ∧ (readCmds.contains (firstToken command) = false →
        searchCmds.contains (firstToken command) = false →
        command.data.contains '>' = false →
        editCmds.contains (firstToken command) = false →
        fetchCmds.contains (firstToken command) = true →
        classifyCommand command = .fetch)
    ∧ (readCmds.contains (firstToken command) = false →
        searchCmds.contains (firstToken command) = false →
        command.data.contains '>' = false →
        editCmds.contains (firstToken command) = false →
        fetchCmds.contains (firstToken command) = false →
        classifyCommand command = .other) := by
  refine ⟨?_, ?_, ?_, ?_, ?_, ?_⟩
  · cases hc : classifyCommand command <;> simp [hc]
  · intro h1
    simp at h1
    simp [classifyCommand, h1]
  · intro h1 h2
    simp at h1 h2
    simp [classifyCommand, h1, h2]
  · intro h1 h2 h3
    simp at h1 h2
    rcases h3 with h3 | h3 <;> simp at h3 <;> simp [classifyCommand, h1, h2, h3]
  · intro h1 h2 h3 h4 h5
    simp at h1 h2 h3 h4 h5
    simp [classifyCommand, h1, h2, h3, h4, h5]
  · intro h1 h2 h3 h4 h5
    simp at h1 h2 h3 h4 h5
    simp [classifyCommand, h1, h2, h3, h4, h5]

/-- Witness for C4 at the command `grep -r x`. -/
theorem classifyCommand_tokenSets_witness :
    readCmds.contains (firstToken "grep -r x") = false
    ∧ searchCmds.contains (firstToken "grep -r x") = true
    ∧ classifyCommand "grep -r x" = .search :=
  ⟨by decide, by decide,
    (classifyCommand_tokenSets "grep -r x").2.2.1 (by decide) (by decide)⟩

/-! ## C8 — pending persistence preserves the log order invariant -/

/-- C8: `persistPendingMessage` appends, inside one transaction, a row whose
`turnIndex` and `entryIndex` are the per-issue maxima plus one, so its
`(turnIndex, entryIndex)` pair is lexicographically strictly greater than
that of every prior row of the same issue. -/
theorem persistPending_strictOrder (db : List IssueLogRow) (issueId prompt : String)
    (meta : JObj) (newId ts : String) (r : IssueLogRow)
    (hr : r ∈ db) (hid : r.issueId = issueId) :
    persistPendingMessage db issueId prompt meta newId ts
        = db ++ [mkPendingRow db issueId prompt meta newId ts]
    ∧ (mkPendingRow db issueId prompt meta newId ts).turnIndex = nextTurnIndex db issueId
    ∧ (mkPendingRow db issueId prompt meta newId ts).entryIndex = nextEntryIndex db issueId
    ∧ r.turnIndex < (mkPendingRow db issueId prompt meta newId ts).turnIndex
    ∧ Prod.Lex (· < ·) (· < ·) (r.turnIndex, r.entryIndex)
        ((mkPendingRow db issueId prompt meta newId ts).turnIndex,
          (mkPendingRow db issueId prompt meta newId ts).entryIndex) := by
  have hmem : r ∈ issueRows db issueId :=
    List.mem_filter.mpr ⟨hr, by simp [hid]⟩
  have hmem2 : r.turnIndex ∈ (issueRows db issueId).map (·.turnIndex) :=
    List.mem_map_of_mem _ hmem
  obtain ⟨m, hm, hle⟩ := listMax?_le_of_mem hmem2
  have hlt : r.turnIndex < nextTurnIndex db issueId := by
    unfold nextTurnIndex
    rw [hm]
    simp only [Option.getD_some]
    omega
  exact ⟨rfl, rfl, rfl, hlt, Prod.Lex.left _ _ hlt⟩

/-- Witness for C8: append a pending message after one existing row. -/
theorem persistPending_strictOrder_witness :
    demoLogRow ∈ [demoLogRow] ∧ demoLogRow.issueId = "i1"
    ∧ demoLogRow.turnIndex
        < (mkPendingRow [demoLogRow] "i1" "more work" pendingDefaultMeta "log-1" "t1").turnIndex :=
  ⟨by simp, rfl,
    (persistPending_strictOrder [demoLogRow] "i1" "more work" pendingDefaultMeta
      "log-1" "t1" demoLogRow (by simp) rfl).2.2.2.1⟩

/-! ## C2 — turn completion flushes the queued inputs -/

/-- C2: on turn completion with a non-empty `pendingInputs` queue, all queued
prompts are merged into one prompt joined by blank lines in FIFO order, the
recorded model override is the last queued non-null model, the queue is
emptied, and the merged prompt is sent to the process while its state stays
`running` (the issue is not settled). -/
theorem turnCompleted_flushesQueue (m : Managed) (hrun : m.state = .running)
    (hne : m.pendingInputs ≠ []) (hp : ∀ i ∈ m.pendingInputs, i.prompt ≠ "") :
    ∃ s mo,
      handleTurnCompleted m
          = ({ m with turnInFlight := false, pendingInputs := [] }, .flushed s mo)
      ∧ s.prompt = String.intercalate "\n\n" (m.pendingInputs.map (·.prompt))
      ∧ mo = m.pendingInputs.reverse.findSome? (·.model)
      ∧ (handleTurnCompleted m).1.state = .running
      ∧ (handleTurnCompleted m).1.pendingInputs = [] := by
  have hlen : 0 < m.pendingInputs.length := List.length_pos.mpr hne
  have hkey : handleTurnCompleted m = flushQueuedInputs { m with turnInFlight := false } := by
    unfold handleTurnCompleted dispatchTurnCompleted
    simp [hrun, hlen]
  have hflush : flushQueuedInputs { m with turnInFlight := false }
      = ({ m with turnInFlight := false, pendingInputs := [] },
          .flushed
            ⟨String.intercalate "\n\n" ((m.pendingInputs.map (·.prompt)).filter (fun p => p != "")),
              (if (String.intercalate "\n\n"
                    ((m.pendingInputs.filterMap (·.displayPrompt)).filter (fun p => p != ""))) == ""
               then none
               else some (String.intercalate "\n\n"
                    ((m.pendingInputs.filterMap (·.displayPrompt)).filter (fun p => p != "")))),
              (m.pendingInputs.getLast?).bind (·.metadata)⟩
            (m.pendingInputs.foldl (fun acc i => i.model.or acc) none)) := by
    unfold flushQueuedInputs
    simp [hrun, hne]
  have hfilter : (m.pendingInputs.map (·.prompt)).filter (fun p => p != "")
      = m.pendingInputs.map (·.prompt) := by
    apply List.filter_eq_self.mpr
    intro a ha
    obtain ⟨i, hi, rfl⟩ := List.mem_map.mp ha
    simpa using hp i hi
  refine ⟨_, _, by rw [hkey, hflush], ?_, ?_, ?_, ?_⟩
  · simp [hfilter]
  · have hnone : ∀ o : Option String, o.or none = o := fun o => by cases o <;> rfl
    exact (foldl_lastSome (fun x => x.model) m.pendingInputs none).trans
      (hnone (m.pendingInputs.reverse.findSome? (fun x => x.model)))
  · rw [hkey, hflush]
    exact hrun
  · rw [hkey, hflush]

/-- Witness for C2 at a running process with two queued inputs. -/
theorem turnCompleted_flushesQueue_witness :
    demoManaged.state = .running ∧ demoManaged.pendingInputs ≠ []
    ∧ (∀ i ∈ demoManaged.pendingInputs, i.prompt ≠ "")
    ∧ ∃ s mo,
        handleTurnCompleted demoManaged
            = ({ demoManaged with turnInFlight := false, pendingInputs := [] }, .flushed s mo)
        ∧ s.prompt = String.intercalate "\n\n" (demoManaged.pendingInputs.map (·.prompt))
        ∧ mo = demoManaged.pendingInputs.reverse.findSome? (·.model)
        ∧ (handleTurnCompleted demoManaged).1.state = .running
        ∧ (handleTurnCompleted demoManaged).1.pendingInputs = [] :=
  ⟨rfl, by decide, by decide,
    turnCompleted_flushesQueue demoManaged rfl (by decide) (by decide)⟩

/-! ## C1 — pending-message round trip -/

/-- C1: evaluation of the queue-pending path at its simplest input.  The
follow-up to a todo issue durably persists a `user-message` row with
`visible = 1` and metadata `{ pending: true }`, yet `getPendingMessages`
returns the empty list for that issue because it matches
`metadata.type === 'pending'`, a key the persistence path never writes:
the queued message is never offered to the flush paths. -/
theorem pendingPersist_notReturned :
    (persistPendingMessage [] "i1" "hello" pendingDefaultMeta "log-1" "t0").map
        (fun r => (r.entryType, r.visible, r.metadata))
      = [("user-message", 1, some pendingDefaultMeta)]
    ∧ getPendingMessages (persistPendingMessage [] "i1" "hello" pendingDefaultMeta "log-1" "t0") "i1"
      = [] := by
  refine ⟨by decide, by decide⟩

/-! ## C7 — cancellation noise suppression -/

/-- Sufficient condition for `isCancelledNoiseEntry`: the subtype matches
and one of the four phrases occurs in the lowercased content or error
text (the source checks the concatenation, which contains both). -/
theorem isCancelledNoise_of (e : NormalizedLogEntry) (md : Metadata)
    (hm : e.metadata = some md)
    (hs : md.resultSubtype = some "error_during_execution")
    (hph : ∃ p ∈ noisePhrases,
        containsSub p.data (toLowerJs e.content).data = true
        ∨ containsSub p.data (toLowerJs (md.error.getD "")).data = true) :
    isCancelledNoiseEntry e = true := by
  unfold isCancelledNoiseEntry
  rw [hm]
  simp only [Option.some_bind, hs]
  simp only [beq_self_eq_true, Bool.true_and]
  obtain ⟨p, hp, hc⟩ := hph
  have hdata : (toLowerJs (e.content ++ " " ++ (md.error.getD ""))).data
      = ((toLowerJs e.content).data ++ (toLowerJs " ").data)
        ++ (toLowerJs (md.error.getD "")).data := by
    simp [toLowerJs, String.data_append]
  have hcomb :
      containsSub p.data (toLowerJs (e.content ++ " " ++ (md.error.getD ""))).data = true := by
    rw [hdata]
    rcases hc with hc | hc
    · exact containsSub_append_left _ (containsSub_append_left _ hc)
    · exact containsSub_append_right _ hc
  simp only [noisePhrases, List.mem_cons, List.mem_singleton, List.not_mem_nil, or_false] at hp
  rcases hp with rfl | rfl | rfl | rfl <;> simp [hcomb]

/-- C7: after the user cancels, an entry with
`resultSubtype = error_during_execution` whose content or error text
contains one of the four fixed phrases is not delivered to `onEntry`,
while `onTurnCompleted` still fires (such an entry always carries the
turn-completion signal through its `resultSubtype` key). -/
theorem cancelledNoise_suppressed (raw : NormalizedLogEntry) (metaTurn : Bool)
    (turnIdx : Nat) (now : String)
    (hsub : raw.metadata.bind (·.resultSubtype) = some "error_during_execution")
    (hph : ∃ p ∈ noisePhrases,
        containsSub p.data (toLowerJs raw.content).data = true
        ∨ containsSub p.data
            (toLowerJs ((raw.metadata.bind (·.error)).getD "")).data = true) :
    (processStreamEntry true metaTurn turnIdx now raw).delivered = none
    ∧ (processStreamEntry true metaTurn turnIdx now raw).turnCompleted = true := by
  cases hmd : raw.metadata with
  | none => rw [hmd] at hsub; simp at hsub
  | some md =>
    rw [hmd] at hsub
    simp only [Option.some_bind] at hsub
    rw [hmd] at hph
    simp only [Option.some_bind] at hph
    have hn1 : isCancelledNoiseEntry
        { raw with
          turnIndex := some turnIdx
          timestamp := some (raw.timestamp.getD now)
          metadata := some md } = true :=
      isCancelledNoise_of _ md rfl hsub hph
    have hn2 : isCancelledNoiseEntry
        { raw with
          turnIndex := some turnIdx
          timestamp := some (raw.timestamp.getD now)
          metadata := some ({ md with type := some "system" }) } = true :=
      isCancelledNoise_of _ ({ md with type := some "system" }) rfl (by simp [hsub]) hph
    have ht1 : isTurnCompletionEntry
        { raw with
          turnIndex := some turnIdx
          timestamp := some (raw.timestamp.getD now)
          metadata := some md } = true := by
      simp [isTurnCompletionEntry, hsub]
    have ht2 : isTurnCompletionEntry
        { raw with
          turnIndex := some turnIdx
          timestamp := some (raw.timestamp.getD now)
          metadata := some ({ md with type := some "system" }) } = true := by
      simp [isTurnCompletionEntry, hsub]
    cases metaTurn <;>
      simp [processStreamEntry, hmd, hn1, hn2, ht1, ht2]

/-- Witness for C7 at a concrete aborted-request result entry. -/
theorem cancelledNoise_suppressed_witness :
    demoNoiseEntry.metadata.bind (·.resultSubtype) = some "error_during_execution"
    ∧ (processStreamEntry true false 3 "t0" demoNoiseEntry).delivered = none
    ∧ (processStreamEntry true false 3 "t0" demoNoiseEntry).turnCompleted = true :=
  ⟨rfl,
    (cancelledNoise_suppressed demoNoiseEntry false 3 "t0" rfl
      ⟨"request was aborted", by decide, Or.inl (by decide)⟩).1,
    (cancelledNoise_suppressed demoNoiseEntry false 3 "t0" rfl
      ⟨"request was aborted", by decide, Or.inl (by decide)⟩).2⟩

/-! ## C3 — title-extraction round trip -/


theorem closeTag_selfOverlapFree :
    ∀ k < 15, 0 < k → (closeTag.drop k).isPrefixOf closeTag = false := by decide

theorem closeTag_length : closeTag.length = 15 := rfl

theorem closeTag_isPrefixOf_append {T : List Char} (hT : T ≠ [])
    (h : closeTag.isPrefixOf (T ++ closeTag) = true) : containsSub closeTag T = true := by
  obtain ⟨t, ht⟩ := isPrefixOf_iff_exists.mp h
  by_cases hc : 15 ≤ T.length
  · have h1 : (T ++ closeTag).take 15 = T.take 15 := List.take_append_of_le_length hc
    have h2 : (closeTag ++ t).take 15 = closeTag := by
      have h3 := List.take_left closeTag t
      rw [closeTag_length] at h3
      exact h3
    rw [ht, h2] at h1
    have hpre : closeTag.isPrefixOf T = true := by
      have hTeq : T = closeTag ++ T.drop 15 := by
        conv_lhs => rw [← List.take_append_drop 15 T]
        rw [← h1]
      rw [hTeq]
      exact isPrefixOf_append_self _ _
    exact containsSub_of_isPrefixOf hT hpre
  · exfalso
    push_neg at hc
    have hpos : 0 < T.length := List.length_pos.mpr hT
    have h1 : (T ++ closeTag).drop T.length = closeTag := List.drop_left T closeTag
    have h2 : (closeTag ++ t).drop T.length = closeTag.drop T.length ++ t := by
      rw [List.drop_append_eq_append_drop]
      have hz : T.length - closeTag.length = 0 := by
        rw [closeTag_length]; omega
      rw [hz, List.drop_zero]
    rw [ht, h2] at h1
    have hbad : (closeTag.drop T.length).isPrefixOf closeTag = true := by
      nth_rewrite 2 [← h1]
      exact isPrefixOf_append_self _ _
    rw [closeTag_selfOverlapFree T.length hc hpos] at hbad
    exact Bool.false_ne_true hbad

theorem lazyScan_cons (acc : List Char) (c : Char) (rest : List Char) :
    lazyScan acc (c :: rest) =
      if closeTag.isPrefixOf (c :: rest) then some acc.reverse
      else if isLineTerm c then none
      else lazyScan (c :: acc) rest := rfl

theorem lazyScan_at_closeTag (acc : List Char) :
    lazyScan acc closeTag = some acc.reverse := rfl

theorem firstMatch_cons (c : Char) (rest : List Char) :
    firstMatch (c :: rest) =
      (match tryMatchAt (c :: rest) with
      | some g => some g
      | none => firstMatch rest) := rfl

theorem lazyScan_through (T : List Char) (acc : List Char)
    (hdot : ∀ c ∈ T, isLineTerm c = false)
    (hsub : containsSub closeTag T = false) :
    lazyScan acc (T ++ closeTag) = some (acc.reverse ++ T) := by
  induction T generalizing acc with
  | nil =>
    rw [List.nil_append, lazyScan_at_closeTag]
    simp
  | cons c T' ih =>
    have hnp : closeTag.isPrefixOf (c :: (T' ++ closeTag)) = false := by
      cases hb : closeTag.isPrefixOf (c :: (T' ++ closeTag)) with
      | false => rfl
      | true =>
        have hct := closeTag_isPrefixOf_append (List.cons_ne_nil c T') (by
          rw [List.cons_append]; exact hb)
        rw [hct] at hsub
        exact absurd hsub (by simp)
    have hc : isLineTerm c = false := hdot c (List.mem_cons_self c T')
    have hsub2 : containsSub closeTag T' = false := by
      have hx := hsub
      simp only [containsSub, Bool.or_eq_false_iff] at hx
      exact hx.2
    rw [List.cons_append, lazyScan_cons, hnp, hc]
    simp only [Bool.false_eq_true, if_false]
    rw [ih (c :: acc) (fun x hx => hdot x (List.mem_cons_of_mem c hx)) hsub2]
    simp

theorem openTag_length : openTag.length = 13 := rfl

theorem tryMatchAt_wrapped (T : List Char)
    (hdot : ∀ c ∈ T, isLineTerm c = false)
    (hsub : containsSub closeTag T = false) :
    tryMatchAt (openTag ++ (T ++ closeTag)) = some T := by
  unfold tryMatchAt
  rw [isPrefixOf_append_self openTag (T ++ closeTag)]
  simp only [if_true]
  rw [openTag_length]
  have hdrop : (openTag ++ (T ++ closeTag)).drop 13 = T ++ closeTag := by
    have hd := List.drop_left openTag (T ++ closeTag)
    rw [openTag_length] at hd
    exact hd
  rw [hdrop, lazyScan_through T [] hdot hsub]
  simp

theorem firstMatch_wrapped (T : List Char)
    (hdot : ∀ c ∈ T, isLineTerm c = false)
    (hsub : containsSub closeTag T = false) :
    firstMatch (openTag ++ T ++ closeTag) = some T := by
  have hm := tryMatchAt_wrapped T hdot hsub
  have hm2 : tryMatchAt ('<' :: ("bitk><title>".data ++ (T ++ closeTag))) = some T := hm
  rw [List.append_assoc]
  show firstMatch ('<' :: ("bitk><title>".data ++ (T ++ closeTag))) = some T
  rw [firstMatch_cons, hm2]

theorem firstMatch_none_of_noOpen (s : List Char)
    (h : containsSub openTag s = false) : firstMatch s = none := by
  induction s with
  | nil => decide
  | cons c rest ih =>
    simp only [containsSub, Bool.or_eq_false_iff] at h
    rw [firstMatch_cons]
    unfold tryMatchAt
    rw [h.1]
    simp only [Bool.false_eq_true, if_false]
    exact ih h.2



theorem extractTitle_roundTrip :
    (∀ T : List Char, (∀ c ∈ T, isLineTerm c = false) → containsSub closeTag T = false →
      extractTitle (String.mk (openTag ++ T ++ closeTag))
        = (if ((jsTrimList T).take 200).isEmpty then none
           else some (String.mk ((jsTrimList T).take 200))))
    ∧ (∀ s : String, containsSub openTag s.data = false → extractTitle s = none) := by
  constructor
  · intro T hdot hsub
    unfold extractTitle
    have hdat : (String.mk (openTag ++ T ++ closeTag)).data = openTag ++ T ++ closeTag := rfl
    rw [hdat, firstMatch_wrapped T hdot hsub]
  · intro s h
    unfold extractTitle
    rw [firstMatch_none_of_noOpen s.data h]

theorem extractTitle_newline_cex :
    extractTitle "<bitk><title>a\nb</title></bitk>" = none
    ∧ ¬ jsTrim "a\nb" = "" := by
  refine ⟨by decide, by decide⟩

theorem extractTitle_roundTrip_witness :
    extractTitle (String.mk (openTag ++ "Fix login page crash".data ++ closeTag))
      = some "Fix login page crash" := by
  have h := extractTitle_roundTrip.1 "Fix login page crash".data (by decide) (by decide)
  rw [h]
  decide

/-! ## C6 — stream normalization -/


theorem splitNlAux_frag_no_newline (s : List Char) : '\n' ∉ (splitNlAux s).2 := by
  induction s with
  | nil => simp [splitNlAux]
  | cons c cs ih =>
    by_cases hc : c = '\n'
    · simp [splitNlAux, hc, ih]
    · cases hA : (splitNlAux cs).1 with
      | nil =>
        simp [splitNlAux, hc, hA]
        exact ⟨fun h => hc h.symm, ih⟩
      | cons l ls =>
        simp [splitNlAux, hc, hA]
        exact ih

theorem splitNlAux_no_newline {s : List Char} (h : '\n' ∉ s) : splitNlAux s = ([], s) := by
  induction s with
  | nil => rfl
  | cons c cs ih =>
    have hc : ¬ c = '\n' := fun hcc => h (hcc ▸ List.mem_cons_self c cs)
    have hcs : '\n' ∉ cs := fun hm => h (List.mem_cons_of_mem c hm)
    simp [splitNlAux, hc, ih hcs]

theorem splitNlAux_append (s b : List Char) :
    splitNlAux (s ++ b) =
      ((splitNlAux s).1 ++ (splitNlAux ((splitNlAux s).2 ++ b)).1,
        (splitNlAux ((splitNlAux s).2 ++ b)).2) := by
  induction s with
  | nil => simp [splitNlAux]
  | cons c s' ih =>
    by_cases hc : c = '\n'
    · subst hc
      simp only [List.cons_append, splitNlAux, if_true, List.append_eq]
      rw [ih]
    · cases hA : (splitNlAux s').1 with
      | nil =>
        simp only [List.cons_append, splitNlAux, hc, if_false, List.append_eq]
        rw [ih, hA]
        simp only [List.nil_append]
        cases hB : (splitNlAux ((splitNlAux s').2 ++ b)).1 with
        | nil =>
          simp only [hB, splitNlAux, hc, if_false, List.cons_append, List.append_eq, hA]
        | cons l ls =>
          simp only [hB, splitNlAux, hc, if_false, List.cons_append, List.append_eq, hA]
      | cons l ls =>
        simp only [List.cons_append, splitNlAux, hc, if_false, List.append_eq]
        rw [ih, hA]
        simp [splitNlAux, hc, hA]

theorem foldl_normStep {α} (parse : String → Option α) (chunks : List String)
    (buf : List Char) (out : List α) (hbuf : '\n' ∉ buf) :
    chunks.foldl (normStep parse) (buf, out) =
      ((splitNlAux (buf ++ chunksData chunks)).2,
        out ++ ((splitNlAux (buf ++ chunksData chunks)).1.filter
            (fun l => !(jsTrimList l).isEmpty)).filterMap (fun l => parse (String.mk l))) := by
  induction chunks generalizing buf out with
  | nil =>
    simp [chunksData, splitNlAux_no_newline hbuf]
  | cons ch chs ih =>
    rw [List.foldl_cons]
    have hstep : normStep parse (buf, out) ch =
        ((splitNlAux (buf ++ ch.data)).2,
          out ++ ((splitNlAux (buf ++ ch.data)).1.filter
              (fun l => !(jsTrimList l).isEmpty)).filterMap (fun l => parse (String.mk l))) := rfl
    rw [hstep, ih _ _ (splitNlAux_frag_no_newline (buf ++ ch.data))]
    have hcat : chunksData (ch :: chs) = ch.data ++ chunksData chs := rfl
    rw [hcat, ← List.append_assoc]
    rw [splitNlAux_append (buf ++ ch.data) (chunksData chs)]
    simp [List.filter_append, List.filterMap_append]


theorem feedLines_pure {α ε : Type} (parse : String → Option α) (ls : List (List Char)) :
    feedLines (ε := ε) (fun s => Except.ok (parse s)) ls
      = ((ls.filter (fun l => !(jsTrimList l).isEmpty)).filterMap
          (fun l => parse (String.mk l)), none) := by
  induction ls with
  | nil => rfl
  | cons l ls ih =>
    by_cases hb : (jsTrimList l).isEmpty
    · simp [feedLines, hb, ih]
    · cases hp : parse (String.mk l) with
      | none => simp [feedLines, hb, hp, ih]
      | some a => simp [feedLines, hb, hp, ih]

theorem normalizeStreamBody_pure {α ε : Type} (parse : String → Option α)
    (chunks : List String) (buf : List Char) (hbuf : '\n' ∉ buf) :
    normalizeStreamBody (fun s => Except.ok (parse s)) buf (chunks.map Except.ok)
      = (((jsSplitLines (buf ++ chunksData chunks)).filter
            (fun l => !(jsTrimList l).isEmpty)).filterMap (fun l => parse (String.mk l)),
          (none : Option ε)) := by
  induction chunks generalizing buf with
  | nil =>
    have hsp : splitNlAux buf = ([], buf) := splitNlAux_no_newline hbuf
    have hcd : chunksData [] = [] := rfl
    rw [List.map_nil, hcd, List.append_nil]
    unfold jsSplitLines
    rw [hsp]
    by_cases hb : (jsTrimList buf).isEmpty
    · simp [normalizeStreamBody, hb]
    · cases hp : parse (String.mk buf) with
      | none => simp [normalizeStreamBody, hb, hp]
      | some a => simp [normalizeStreamBody, hb, hp]
  | cons ch chs ih =>
    rw [List.map_cons]
    simp only [normalizeStreamBody, feedLines_pure]
    rw [ih _ (splitNlAux_frag_no_newline (buf ++ ch.data))]
    have hcat : chunksData (ch :: chs) = ch.data ++ chunksData chs := rfl
    rw [hcat, ← List.append_assoc]
    unfold jsSplitLines
    rw [splitNlAux_append (buf ++ ch.data) (chunksData chs)]
    simp [List.filter_append, List.filterMap_append]

/-- C6: the stream-normalization contract in full.  (1) Over a reader whose
reads all deliver and a parser that never throws, the consumer-visible
trace is the pure `normalizeStream` output followed by the reader release.
(2) `normalizeStream` is invariant under chunk boundaries: its output is
exactly the non-null parses, in order, of the non-blank pieces of the
newline split of the whole decoded stream, the trailing (possibly
incomplete) non-blank fragment parsed exactly once on stream end.  (3) On
every input — including a read or a parser that throws mid-stream — the
trace decomposes as yielded entries, then exactly one reader release, then
at most a propagated exception: the reader is released on every exit path,
normal or exceptional. -/
theorem normalizeStream_linesOnce_and_release :
    (∀ (ε α : Type) (chunks : List String) (parse : String → Option α),
      normalizeStreamTrace (ε := ε) (chunks.map Except.ok) (fun s => Except.ok (parse s))
        = (normalizeStream chunks parse).map StreamEvent.yielded ++ [StreamEvent.released])
    ∧ (∀ (α : Type) (chunks : List String) (parse : String → Option α),
      normalizeStream chunks parse =
        ((jsSplitLines (chunksData chunks)).filter
            (fun l => !(jsTrimList l).isEmpty)).filterMap (fun l => parse (String.mk l)))
    ∧ (∀ (ε α : Type) (reads : List (Except ε String))
        (parse : String → Except ε (Option α)),
        ∃ (pre post : List (StreamEvent ε α)), normalizeStreamTrace reads parse
            = pre ++ StreamEvent.released :: post
          ∧ (∀ ev ∈ pre, ∃ a, ev = StreamEvent.yielded a)
          ∧ (∀ ev ∈ post, ∃ e, ev = StreamEvent.raised e)
          ∧ StreamEvent.released ∉ pre ∧ StreamEvent.released ∉ post) := by
  have heq : ∀ (α : Type) (chunks : List String) (parse : String → Option α),
      normalizeStream chunks parse =
        ((jsSplitLines (chunksData chunks)).filter
            (fun l => !(jsTrimList l).isEmpty)).filterMap (fun l => parse (String.mk l)) := by
    intro α chunks parse
    unfold normalizeStream
    rw [foldl_normStep parse chunks [] [] (by simp)]
    simp only [List.nil_append, jsSplitLines, List.filter_append, List.filterMap_append]
    cases hnb : (jsTrimList (splitNlAux (chunksData chunks)).2).isEmpty
    · simp [hnb, List.filterMap]
      cases parse (String.mk (splitNlAux (chunksData chunks)).2) <;> simp [Option.toList]
    · simp [hnb, List.filterMap]
  refine ⟨?_, heq, ?_⟩
  · intro ε α chunks parse
    unfold normalizeStreamTrace
    rw [normalizeStreamBody_pure parse chunks [] (by simp)]
    rw [heq α chunks parse]
    simp
  · intro ε α reads parse
    cases hb : (normalizeStreamBody parse [] reads).2 with
    | none =>
      refine ⟨(normalizeStreamBody parse [] reads).1.map StreamEvent.yielded, [],
        ?_, ?_, ?_, ?_, ?_⟩
      · simp only [normalizeStreamTrace]
        rw [hb]
        simp
      · intro ev hev
        obtain ⟨a, _, rfl⟩ := List.mem_map.mp hev
        exact ⟨a, rfl⟩
      · intro ev hev
        cases hev
      · intro hmem
        obtain ⟨a, _, ha⟩ := List.mem_map.mp hmem
        cases ha
      · intro hmem
        cases hmem
    | some e =>
      refine ⟨(normalizeStreamBody parse [] reads).1.map StreamEvent.yielded,
        [StreamEvent.raised e], ?_, ?_, ?_, ?_, ?_⟩
      · simp only [normalizeStreamTrace]
        rw [hb]
        simp
      · intro ev hev
        obtain ⟨a, _, rfl⟩ := List.mem_map.mp hev
        exact ⟨a, rfl⟩
      · intro ev hev
        have hev2 := List.mem_singleton.mp hev
        exact ⟨e, hev2⟩
      · intro hmem
        obtain ⟨a, _, ha⟩ := List.mem_map.mp hmem
        cases ha
      · intro hmem
        have hm2 := List.mem_singleton.mp hmem
        cases hm2

/-! ## C5 — log pagination -/


theorem takeLast_length (n : Nat) (l : List α) : (takeLast n l).length = min n l.length := by
  simp [takeLast]

theorem takeLast_of_le {n : Nat} {l : List α} (h : l.length ≤ n) : takeLast n l = l := by
  unfold takeLast
  rw [List.take_of_length_le (by simpa using h)]
  simp

theorem takeLast_takeLast (a b : Nat) (l : List α) :
    takeLast a (takeLast b l) = takeLast (min a b) l := by
  unfold takeLast
  rw [List.reverse_reverse, List.take_take]

theorem takeLast_sublist (n : Nat) (l : List α) : List.Sublist (takeLast n l) l := by
  unfold takeLast
  have h := (List.take_sublist n l.reverse).reverse
  simpa using h

theorem effLimit_some {n : Nat} (h1 : 1 ≤ n) (h2 : n ≤ 1000) : effLimit (some n) = n := by
  have hn : ¬ n = 0 := by omega
  simp only [effLimit]
  rw [if_neg hn]
  omega

theorem reverse_trim_eq (v : List LogView) (n F : Nat) (hF : n < F) :
    (if n < (takeLast F v).length then takeLast n (takeLast F v) else takeLast F v)
      = takeLast n v := by
  have hlen := takeLast_length F v
  by_cases hm : n < v.length
  · have hmore : n < (takeLast F v).length := by rw [hlen]; omega
    rw [if_pos hmore, takeLast_takeLast]
    have hmin : min n F = n := by omega
    rw [hmin]
  · have hle : v.length ≤ n := by omega
    have hfull : takeLast F v = v := takeLast_of_le (by omega)
    have hnm : ¬ n < (takeLast F v).length := by rw [hlen]; omega
    rw [if_neg hnm, hfull, takeLast_of_le hle]

theorem reverse_more_iff (v : List LogView) (n F : Nat) (hF : n < F) :
    (n < (takeLast F v).length) ↔ (n < v.length) := by
  rw [takeLast_length]
  omega

theorem getLogsHandler_reverse (logs : List LogView) (devMode : Bool) (n : Nat)
    (h1 : 1 ≤ n) (h2 : n ≤ 1000) :
    getLogsHandler logs devMode none none (some n) =
      ⟨takeLast n (visibleLogs logs devMode),
        (if n < (visibleLogs logs devMode).length
         then (takeLast n (visibleLogs logs devMode)).head?.map (·.mid)
         else none),
        decide (n < (visibleLogs logs devMode).length)⟩ := by
  cases devMode
  all_goals
    simp only [getLogsHandler]
    rw [effLimit_some h1 h2]
    simp only [Option.isNone_none, Bool.false_eq_true, Bool.true_eq_false, if_false, if_true,
      Nat.mul_one]
  case false =>
    have hls : getLogs logs false none none (n * 2 + 1)
        = takeLast (n * 2 + 1) (visibleLogs logs false) := rfl
    rw [hls]
    rw [reverse_trim_eq (visibleLogs logs false) n (n * 2 + 1) (by omega)]
    by_cases hm : n < (visibleLogs logs false).length
    · simp [reverse_more_iff (visibleLogs logs false) n (n * 2 + 1) (by omega), hm]
    · simp [reverse_more_iff (visibleLogs logs false) n (n * 2 + 1) (by omega), hm]
  case true =>
    have hls : getLogs logs true none none (n + 1)
        = takeLast (n + 1) (visibleLogs logs true) := rfl
    rw [hls]
    rw [reverse_trim_eq (visibleLogs logs true) n (n + 1) (by omega)]
    by_cases hm : n < (visibleLogs logs true).length
    · simp [reverse_more_iff (visibleLogs logs true) n (n + 1) (by omega), hm]
    · simp [reverse_more_iff (visibleLogs logs true) n (n + 1) (by omega), hm]

theorem forward_trim_eq (w : List LogView) (n F : Nat) (hF : n < F) :
    (if n < (w.take F).length then (w.take F).take n else w.take F) = w.take n := by
  have hlen : (w.take F).length = min F w.length := List.length_take F w
  by_cases hm : n < w.length
  · have hmore : n < (w.take F).length := by rw [hlen]; omega
    rw [if_pos hmore, List.take_take]
    have hmin : min n F = n := by omega
    rw [hmin]
  · have hle : w.length ≤ n := by omega
    have hfull : w.take F = w := List.take_of_length_le (by omega)
    have hnm : ¬ n < (w.take F).length := by rw [hlen]; omega
    rw [if_neg hnm, hfull, List.take_of_length_le hle]

theorem forward_more_iff (w : List LogView) (n F : Nat) (hF : n < F) :
    (n < (w.take F).length) ↔ (n < w.length) := by
  rw [List.length_take]
  omega

theorem getLogsHandler_forward (logs : List LogView) (devMode : Bool) (c n : Nat)
    (h1 : 1 ≤ n) (h2 : n ≤ 1000) :
    getLogsHandler logs devMode (some c) none (some n) =
      ⟨((visibleLogs logs devMode).filter (fun r => c < r.mid)).take n,
        (if n < ((visibleLogs logs devMode).filter (fun r => c < r.mid)).length
         then (((visibleLogs logs devMode).filter (fun r => c < r.mid)).take n).getLast?.map (·.mid)
         else none),
        decide (n < ((visibleLogs logs devMode).filter (fun r => c < r.mid)).length)⟩ := by
  cases devMode
  all_goals
    simp only [getLogsHandler]
    rw [effLimit_some h1 h2]
    simp only [Option.isNone_some, Bool.false_eq_true, Bool.true_eq_false, if_false, if_true,
      Nat.mul_one]
  case false =>
    have hls : getLogs logs false (some c) none (n * 2 + 1)
        = ((visibleLogs logs false).filter (fun r => c < r.mid)).take (n * 2 + 1) := rfl
    rw [hls]
    rw [forward_trim_eq ((visibleLogs logs false).filter (fun r => c < r.mid)) n (n * 2 + 1)
      (by omega)]
    by_cases hm : n < ((visibleLogs logs false).filter (fun r => c < r.mid)).length
    · simp [forward_more_iff ((visibleLogs logs false).filter (fun r => c < r.mid)) n (n * 2 + 1)
        (by omega), hm]
      exact ⟨fun h => absurd h (by omega), by omega⟩
    · simp [forward_more_iff ((visibleLogs logs false).filter (fun r => c < r.mid)) n (n * 2 + 1)
        (by omega), hm]
  case true =>
    have hls : getLogs logs true (some c) none (n + 1)
        = ((visibleLogs logs true).filter (fun r => c < r.mid)).take (n + 1) := rfl
    rw [hls]
    rw [forward_trim_eq ((visibleLogs logs true).filter (fun r => c < r.mid)) n (n + 1)
      (by omega)]
    by_cases hm : n < ((visibleLogs logs true).filter (fun r => c < r.mid)).length
    · simp [forward_more_iff ((visibleLogs logs true).filter (fun r => c < r.mid)) n (n + 1)
        (by omega), hm]
    · simp [forward_more_iff ((visibleLogs logs true).filter (fun r => c < r.mid)) n (n + 1)
        (by omega), hm]

theorem getLogsHandler_before (logs : List LogView) (devMode : Bool) (b n : Nat)
    (h1 : 1 ≤ n) (h2 : n ≤ 1000) :
    getLogsHandler logs devMode none (some b) (some n) =
      ⟨takeLast n ((visibleLogs logs devMode).filter (fun r => r.mid < b)),
        (if n < ((visibleLogs logs devMode).filter (fun r => r.mid < b)).length
         then (takeLast n ((visibleLogs logs devMode).filter (fun r => r.mid < b))).head?.map (·.mid)
         else none),
        decide (n < ((visibleLogs logs devMode).filter (fun r => r.mid < b)).length)⟩ := by
  cases devMode
  all_goals
    simp only [getLogsHandler]
    rw [effLimit_some h1 h2]
    simp only [Option.isNone_none, Bool.false_eq_true, Bool.true_eq_false, if_false, if_true,
      Nat.mul_one]
  case false =>
    have hls : getLogs logs false none (some b) (n * 2 + 1)
        = takeLast (n * 2 + 1) ((visibleLogs logs false).filter (fun r => r.mid < b)) := rfl
    rw [hls]
    rw [reverse_trim_eq ((visibleLogs logs false).filter (fun r => r.mid < b)) n (n * 2 + 1)
      (by omega)]
    by_cases hm : n < ((visibleLogs logs false).filter (fun r => r.mid < b)).length
    · simp [reverse_more_iff ((visibleLogs logs false).filter (fun r => r.mid < b)) n (n * 2 + 1)
        (by omega), hm]
    · simp [reverse_more_iff ((visibleLogs logs false).filter (fun r => r.mid < b)) n (n * 2 + 1)
        (by omega), hm]
  case true =>
    have hls : getLogs logs true none (some b) (n + 1)
        = takeLast (n + 1) ((visibleLogs logs true).filter (fun r => r.mid < b)) := rfl
    rw [hls]
    rw [reverse_trim_eq ((visibleLogs logs true).filter (fun r => r.mid < b)) n (n + 1)
      (by omega)]
    by_cases hm : n < ((visibleLogs logs true).filter (fun r => r.mid < b)).length
    · simp [reverse_more_iff ((visibleLogs logs true).filter (fun r => r.mid < b)) n (n + 1)
        (by omega), hm]
    · simp [reverse_more_iff ((visibleLogs logs true).filter (fun r => r.mid < b)) n (n + 1)
        (by omega), hm]

/-- C5 amended: for a log store in insertion order, a request without a
cursor returns the newest up-to-`limit` visible entries in ascending order,
with `nextCursor` equal to the oldest returned entry id when a further page
exists and null otherwise; a request with `cursor` returns entries strictly
after it; a request with `before` returns the newest entries strictly
before it; and `hasMore` is true iff another page exists in the requested
direction (the devMode post-filter is compensated by overfetching by factor
2 plus one and trimming). -/
theorem getLogs_paged (logs : List LogView) (devMode : Bool) (n : Nat)
    (h1 : 1 ≤ n) (h2 : n ≤ 1000)
    (hsort : logs.Pairwise (fun x y => x.mid < y.mid)) :
    ((getLogsHandler logs devMode none none (some n)).logs
        = takeLast n (visibleLogs logs devMode)
      ∧ (getLogsHandler logs devMode none none (some n)).logs.Pairwise
          (fun x y => x.mid < y.mid)
      ∧ ((getLogsHandler logs devMode none none (some n)).hasMore = true
          ↔ n < (visibleLogs logs devMode).length)
      ∧ (getLogsHandler logs devMode none none (some n)).nextCursor
          = (if n < (visibleLogs logs devMode).length
             then (takeLast n (visibleLogs logs devMode)).head?.map (·.mid)
             else none))
    ∧ (∀ c : Nat,
        (getLogsHandler logs devMode (some c) none (some n)).logs
            = ((visibleLogs logs devMode).filter (fun r => c < r.mid)).take n
        ∧ (∀ r ∈ (getLogsHandler logs devMode (some c) none (some n)).logs, c < r.mid)
        ∧ ((getLogsHandler logs devMode (some c) none (some n)).hasMore = true
            ↔ n < ((visibleLogs logs devMode).filter (fun r => c < r.mid)).length))
    ∧ (∀ b : Nat,
        (getLogsHandler logs devMode none (some b) (some n)).logs
            = takeLast n ((visibleLogs logs devMode).filter (fun r => r.mid < b))
        ∧ (∀ r ∈ (getLogsHandler logs devMode none (some b) (some n)).logs, r.mid < b)
        ∧ ((getLogsHandler logs devMode none (some b) (some n)).hasMore = true
            ↔ n < ((visibleLogs logs devMode).filter (fun r => r.mid < b)).length)) := by
  refine ⟨⟨?_, ?_, ?_, ?_⟩, ?_, ?_⟩
  · rw [getLogsHandler_reverse logs devMode n h1 h2]
  · rw [getLogsHandler_reverse logs devMode n h1 h2]
    exact hsort.sublist ((takeLast_sublist n _).trans (List.filter_sublist logs))
  · rw [getLogsHandler_reverse logs devMode n h1 h2]
    simp
  · rw [getLogsHandler_reverse logs devMode n h1 h2]
  · intro c
    refine ⟨?_, ?_, ?_⟩
    · rw [getLogsHandler_forward logs devMode c n h1 h2]
    · rw [getLogsHandler_forward logs devMode c n h1 h2]
      intro r hr
      have hrf := List.mem_of_mem_take hr
      simpa using List.of_mem_filter hrf
    · rw [getLogsHandler_forward logs devMode c n h1 h2]
      simp
  · intro b
    refine ⟨?_, ?_, ?_⟩
    · rw [getLogsHandler_before logs devMode b n h1 h2]
    · rw [getLogsHandler_before logs devMode b n h1 h2]
      intro r hr
      have hrf := (takeLast_sublist n _).subset hr
      simpa using List.of_mem_filter hrf
    · rw [getLogsHandler_before logs devMode b n h1 h2]
      simp

/-- C5 counterexample: the very first page of a one-entry issue (no cursor,
default limit) returns that entry but a null `nextCursor`, not the oldest
returned entry id. -/
theorem getLogs_firstPage_noNext_cex :
    (getLogsHandler [⟨1, false⟩] false none none none).logs = [⟨1, false⟩]
    ∧ (getLogsHandler [⟨1, false⟩] false none none none).nextCursor = none
    ∧ ¬ (getLogsHandler [⟨1, false⟩] false none none none).nextCursor = some 1 := by
  refine ⟨by decide, by decide, by decide⟩

/-- Witness for C5 at five entries, one dev-only, limit 2, no cursor. -/
theorem getLogs_paged_witness :
    (getLogsHandler demoRows false none none (some 2)).logs
        = takeLast 2 (visibleLogs demoRows false)
    ∧ ((getLogsHandler demoRows false none none (some 2)).hasMore = true
        ↔ 2 < (visibleLogs demoRows false).length) := by
  have h := (getLogs_paged demoRows false 2 (by decide) (by decide) (by decide)).1
  exact ⟨h.1, h.2.2.1⟩

end Bitk
